import Mathlib

/-!
Verification of the cursor utilities and read buffer of the repository.

The repository has two Rust source files:
  * a cursor library over immutable byte slices, with operations
    `byte`, `slice`, `line`, `size`, `integer` and the error type
    `CursorError`;
  * a `ReadBuf` growable read buffer with operations `read`, `buf`
    and `consume`.

The embedding below models byte slices as `List Nat` (each element a
byte value), the u64 cursor position as a `Nat` with explicit
overflow checks where the Rust code performs checked arithmetic on
u64, and fallible operations as `Option`-wrapped results, where
`none` models a Rust panic (an `expect`, an `assert!`, or an
out-of-bounds index that the code treats as a fatal programmer
error) and `some` carries the `Result` value together with the final
cursor or buffer state.
-/

instance {ε : Type u} {α : Type v} [DecidableEq ε] [DecidableEq α] :
    DecidableEq (Except ε α)
  | .error a, .error b =>
      if h : a = b then .isTrue (h ▸ rfl)
      else .isFalse fun hh => h (Except.error.inj hh)
  | .error _, .ok _ => .isFalse fun hh => Except.noConfusion hh
  | .ok _, .error _ => .isFalse fun hh => Except.noConfusion hh
  | .ok a, .ok b =>
      if h : a = b then .isTrue (h ▸ rfl)
      else .isFalse fun hh => h (Except.ok.inj hh)

namespace CursorUtils

/-- The error type `CursorError` of the cursor library. -/
inductive CursorError where
  /-- Expected a CRLF-terminated line but none was found; carries the
  number of bytes remaining. -/
  | Unterminated : Nat → CursorError
  /-- A specific number of bytes was requested but not available. -/
  | Incomplete : CursorError
  /-- `i64` not parsable from ASCII. -/
  | Integer : CursorError
  /-- `u64` not parsable from ASCII. -/
  | Size : CursorError
deriving DecidableEq, Repr

/-- A `Cursor` over a byte slice: the immutable slice plus a mutable
position (a u64 byte offset in Rust, modelled as `Nat`). -/
structure Cursor where
  buf : List Nat
  pos : Nat
deriving DecidableEq, Repr

/-- Embeds `byte`: reads the byte at the current position, advancing
by 1; `Incomplete` if the position is at or past the end. -/
def byte (src : Cursor) : Except CursorError Nat × Cursor :=
  match src.buf[src.pos]? with
  | some b => (.ok b, { src with pos := src.pos + 1 })
  | none => (.error .Incomplete, src)

/-- Scan for the first index `i` with bytes `13, 10` (CRLF) at `i`,
`i + 1`; embeds the index-by-index search
`(0..rem.len()-1).find(...)` inside `line`. -/
def findCRLF : List Nat → Option Nat
  | [] => none
  | [_] => none
  | a :: b :: rest =>
      if a == 13 && b == 10 then some 0
      else (findCRLF (b :: rest)).map (· + 1)

/-- Embeds `line`: reads a CRLF-terminated line, advancing just past
the line feed.  Here `none` models the panic of the
`.expect("position in bounds")` when the position exceeds the slice
length.  On a missing terminator the error is
`Unterminated(rem.len())` and the position is unchanged. -/
def line (src : Cursor) : Option (Except CursorError (List Nat) × Cursor) :=
  if src.pos ≤ src.buf.length then
    match findCRLF (src.buf.drop src.pos) with
    | some index =>
        some (.ok ((src.buf.drop src.pos).take index),
          { src with pos := src.pos + index + 2 })
    | none =>
        some (.error (.Unterminated (src.buf.drop src.pos).length), src)
  else
    none

/-- Modelled from the spec: the cursor library calls `atoi::atoi::<u64>`
from the external `atoi` crate, whose source is not under `src/`.
Per the spec, a line parses as an unsigned 64-bit size iff it is one
or more ASCII decimal digits, with no sign, no whitespace and no
leading plus, whose value fits in 64 bits; it fails on empty input,
on any non-digit character, and on overflow. -/
def atoiU64 (l : List Nat) : Option Nat :=
  if l ≠ [] ∧ (∀ b ∈ l, 48 ≤ b ∧ b ≤ 57) ∧ digitsVal l < 2 ^ 64 then
    some (digitsVal l)
  else
    none
where
  /-- Value of an ASCII digit string, most significant digit first. -/
  digitsVal (l : List Nat) : Nat := l.foldl (fun acc b => acc * 10 + (b - 48)) 0

/-- Modelled from the spec: `atoi::atoi::<i64>` from the external
`atoi` crate, whose source is not under `src/`.  Per the spec, a line
parses as a signed 64-bit integer iff it is an optional single
leading minus sign followed by one or more ASCII decimal digits, with
no whitespace and no leading plus, whose value fits in a signed
64-bit integer. -/
def atoiI64 (l : List Nat) : Option Int :=
  match l with
  | 45 :: rest =>
      if rest ≠ [] ∧ (∀ b ∈ rest, 48 ≤ b ∧ b ≤ 57) ∧
          atoiU64.digitsVal rest ≤ 2 ^ 63 then
        some (-(atoiU64.digitsVal rest : Int))
      else
        none
  | _ =>
      if l ≠ [] ∧ (∀ b ∈ l, 48 ≤ b ∧ b ≤ 57) ∧
          atoiU64.digitsVal l < 2 ^ 63 then
        some (atoiU64.digitsVal l)
      else
        none

/-- Embeds `size`: reads a line and parses it as an unsigned decimal;
`Size` on a parse failure, with the position left where the
successful `line` call put it. -/
def size (src : Cursor) : Option (Except CursorError Nat × Cursor) :=
  match line src with
  | none => none
  | some (.error e, src') => some (.error e, src')
  | some (.ok l, src') =>
      match atoiU64 l with
      | some n => some (.ok n, src')
      | none => some (.error .Size, src')

/-- Embeds `integer`: reads a line and parses it as a signed decimal;
`Integer` on a parse failure, with the position left where the
successful `line` call put it. -/
def integer (src : Cursor) : Option (Except CursorError Int × Cursor) :=
  match line src with
  | none => none
  | some (.error e, src') => some (.error e, src')
  | some (.ok l, src') =>
      match atoiI64 l with
      | some n => some (.ok n, src')
      | none => some (.error .Integer, src')

/-- The CRLF terminator sits at offset `i` of `rem`: byte 13 at `i`
and byte 10 at `i + 1`. -/
def crlfAt (rem : List Nat) (i : Nat) : Prop :=
  rem[i]? = some 13 ∧ rem[i + 1]? = some 10

instance (rem : List Nat) (i : Nat) : Decidable (crlfAt rem i) :=
  inferInstanceAs (Decidable (rem[i]? = some 13 ∧ rem[i + 1]? = some 10))

/-- Embeds `slice`: reads `len` bytes, advancing past them;
`Incomplete` if fewer remain, with the position unchanged.  Here
`none` models the panic of `checked_add(len).expect("overflow")`
when `position + len` overflows u64. -/
def slice (src : Cursor) (len : Nat) : Option (Except CursorError (List Nat) × Cursor) :=
  if src.pos + len < 2 ^ 64 then
    if src.pos + len ≤ src.buf.length then
      some (.ok ((src.buf.drop src.pos).take len),
        { src with pos := src.pos + len })
    else
      some (.error .Incomplete, src)
  else
    none

end CursorUtils

namespace ReadBufLib

/-- An I/O error: either the dedicated zero-progress error the buffer
raises itself (`io::Error::from(io::ErrorKind::WriteZero)`), or an
arbitrary error produced by the external source, identified by a
code. -/
inductive IOError where
  | writeZero : IOError
  | sourceErr : Nat → IOError
deriving DecidableEq, Repr

/-- One response of the external `Read` source to a single
`reader.read(&mut self.buf[self.end..])` call: either it fails with
an error, or it writes the given bytes into the front of the
provided region and reports their count. -/
inductive ReadResult where
  | ok : List Nat → ReadResult
  | err : IOError → ReadResult
deriving DecidableEq, Repr

/-- The `ReadBuf` state: fixed-capacity store, index of the first
unconsumed byte, and index one past the last filled byte.  The field
named `end` in Rust is `endIdx` here because `end` is a Lean
keyword. -/
structure ReadBuf where
  buf : List Nat
  start : Nat
  endIdx : Nat
deriving DecidableEq, Repr

/-- Embeds `ReadBuf::with_capacity`: zero-filled store of the given
size. -/
def ReadBuf.withCapacity (capacity : Nat) : ReadBuf :=
  { buf := List.replicate capacity 0, start := 0, endIdx := 0 }

/-- Embeds `ReadBuf::new`: capacity 4096. -/
def ReadBuf.new : ReadBuf := ReadBuf.withCapacity 4096

/-- The compaction step at the top of `ReadBuf::read`: when the free
tail is below the 512-byte slack, `ptr::copy` shifts the bytes of
`[start, end)` down to index 0 (bytes from index `end - start`
onward keep their old values) and the indices are rebased. -/
def compact (rb : ReadBuf) : ReadBuf :=
  if rb.endIdx + 512 > rb.buf.length then
    { buf := (rb.buf.drop rb.start).take (rb.endIdx - rb.start) ++
        rb.buf.drop (rb.endIdx - rb.start),
      start := 0,
      endIdx := rb.endIdx - rb.start }
  else
    rb

/-- Overwrite the store at index `pos` with `data`, leaving the rest
unchanged: models the source writing into `&mut self.buf[self.end..]`. -/
def writeAt (buf : List Nat) (pos : Nat) (data : List Nat) : List Nat :=
  buf.take pos ++ data ++ buf.drop (pos + data.length)

/-- Embeds `ReadBuf::read`: compacts when slack is low, lets the source fill
the writable tail, advances `end` by the reported count, and returns
that count, or the zero-progress error when the count is zero.  A
source error is propagated unchanged (after the compaction, which has
already happened).  `none` models a source that violates the `Read`
contract by reporting more bytes than the provided region holds. -/
def ReadBuf.read (rb : ReadBuf) (resp : ReadResult) :
    Option (Except IOError Nat × ReadBuf) :=
  let rb := compact rb
  match resp with
  | .err e => some (.error e, rb)
  | .ok data =>
      if data.length ≤ rb.buf.length - rb.endIdx then
        let rb' := { rb with
          buf := writeAt rb.buf rb.endIdx data,
          endIdx := rb.endIdx + data.length }
        if 0 < data.length then some (.ok data.length, rb')
        else some (.error .writeZero, rb')
      else
        none

/-- Embeds `ReadBuf::buf`: the readable region `buf[start..end]`. -/
def ReadBuf.bufView (rb : ReadBuf) : List Nat :=
  (rb.buf.drop rb.start).take (rb.endIdx - rb.start)

/-- Embeds `ReadBuf::consume`: advances `start` by `amt`; here `none`
models the panic of `assert!(end - start >= amt)` when fewer than
`amt` bytes are readable. -/
def ReadBuf.consume (rb : ReadBuf) (amt : Nat) : Option ReadBuf :=
  if amt ≤ rb.endIdx - rb.start then
    some { rb with start := rb.start + amt }
  else
    none

/-- One step of the driver loop of claim C2: a successful `read`
with the given source bytes, or a `consume`. -/
inductive BufOp where
  | read : List Nat → BufOp
  | consume : Nat → BufOp
deriving DecidableEq, Repr

/-- Run a sequence of buffer operations, requiring every `read` to
succeed (an error or contract violation aborts with `none`) and
every `consume` to respect its precondition. -/
def runOps (rb : ReadBuf) : List BufOp → Option ReadBuf
  | [] => some rb
  | .read data :: rest =>
      match rb.read (.ok data) with
      | some (.ok _, rb') => runOps rb' rest
      | _ => none
  | .consume amt :: rest =>
      match rb.consume amt with
      | some rb' => runOps rb' rest
      | none => none

/-- All bytes supplied by the sources across a sequence of
operations, in order. -/
def suppliedBytes : List BufOp → List Nat
  | [] => []
  | .read data :: rest => data ++ suppliedBytes rest
  | .consume _ :: rest => suppliedBytes rest

/-- Total number of bytes consumed across a sequence of
operations. -/
def consumedCount : List BufOp → Nat
  | [] => 0
  | .read _ :: rest => consumedCount rest
  | .consume amt :: rest => amt + consumedCount rest

/-- Ghost invariant of the driver loop: the buffer indices are in
bounds and the readable region is exactly the supplied bytes minus
the consumed prefix. -/
def Tracks (rb : ReadBuf) (sup : List Nat) (con : Nat) : Prop :=
  rb.start ≤ rb.endIdx ∧ rb.endIdx ≤ rb.buf.length ∧
  con ≤ sup.length ∧ sup.length - con = rb.endIdx - rb.start ∧
  rb.bufView = sup.drop con

end ReadBufLib

namespace CursorUtils

theorem crlfAt_nil (i : Nat) : ¬ crlfAt [] i := by
  simp [crlfAt]

theorem crlfAt_singleton (a i : Nat) : ¬ crlfAt [a] i := by
  cases i <;> simp [crlfAt]

theorem crlfAt_cons_succ (a : Nat) (l : List Nat) (i : Nat) :
    crlfAt (a :: l) (i + 1) ↔ crlfAt l i := by
  unfold crlfAt
  rw [List.getElem?_cons_succ, List.getElem?_cons_succ]

theorem crlfAt_two_cons_zero (a b : Nat) (l : List Nat) :
    crlfAt (a :: b :: l) 0 ↔ a = 13 ∧ b = 10 := by
  simp [crlfAt]

theorem findCRLF_eq_some (rem : List Nat) (i : Nat) (h : findCRLF rem = some i) :
    crlfAt rem i ∧ ∀ j < i, ¬ crlfAt rem j := by
  induction rem generalizing i with
  | nil => simp [findCRLF] at h
  | cons a tail ih =>
      cases tail with
      | nil => simp [findCRLF] at h
      | cons b rest =>
          rw [findCRLF] at h
          split at h
          case isTrue hab =>
            simp only [Bool.and_eq_true, beq_iff_eq] at hab
            obtain ⟨rfl⟩ : i = 0 := by
              cases h
              rfl
            refine ⟨?_, fun j hj => absurd hj (Nat.not_lt_zero j)⟩
            exact (crlfAt_two_cons_zero a b rest).mpr ⟨hab.1, hab.2⟩
          case isFalse hab =>
            simp only [Bool.and_eq_true, beq_iff_eq, not_and] at hab
            rw [Option.map_eq_some'] at h
            obtain ⟨i', hfind, rfl⟩ := h
            obtain ⟨hc, hfirst⟩ := ih i' hfind
            refine ⟨(crlfAt_cons_succ a (b :: rest) i').mpr hc, ?_⟩
            intro j hj
            cases j with
            | zero =>
                rw [crlfAt_two_cons_zero]
                rintro ⟨rfl, rfl⟩
                exact hab rfl rfl
            | succ k =>
                rw [crlfAt_cons_succ]
                exact hfirst k (Nat.lt_of_succ_lt_succ hj)

theorem findCRLF_eq_none (rem : List Nat) (h : findCRLF rem = none) (i : Nat) :
    ¬ crlfAt rem i := by
  induction rem generalizing i with
  | nil => exact crlfAt_nil i
  | cons a tail ih =>
      cases tail with
      | nil => exact crlfAt_singleton a i
      | cons b rest =>
          rw [findCRLF] at h
          split at h
          case isTrue hab => exact absurd h (by simp)
          case isFalse hab =>
            simp only [Bool.and_eq_true, beq_iff_eq, not_and] at hab
            rw [Option.map_eq_none'] at h
            cases i with
            | zero =>
                rw [crlfAt_two_cons_zero]
                rintro ⟨rfl, rfl⟩
                exact hab rfl rfl
            | succ k =>
                rw [crlfAt_cons_succ]
                exact ih h k

theorem findCRLF_eq_some_of_first (rem : List Nat) (i : Nat)
    (hc : crlfAt rem i) (hfirst : ∀ j < i, ¬ crlfAt rem j) :
    findCRLF rem = some i := by
  cases h : findCRLF rem with
  | none => exact absurd hc (findCRLF_eq_none rem h i)
  | some i' =>
      obtain ⟨hc', hfirst'⟩ := findCRLF_eq_some rem i' h
      rcases Nat.lt_trichotomy i i' with hlt | rfl | hgt
      · exact absurd hc (hfirst' i hlt)
      · rfl
      · exact absurd hc' (hfirst i' hgt)

theorem getElem?_some_lt {l : List Nat} {i b : Nat} (h : l[i]? = some b) :
    i < l.length := by
  by_contra hge
  rw [List.getElem?_eq_none (by omega)] at h
  exact Option.noConfusion h

theorem crlfAt_lt_length {rem : List Nat} {i : Nat} (h : crlfAt rem i) :
    i + 1 < rem.length :=
  getElem?_some_lt h.2

theorem line_eq_found (src : Cursor) (i : Nat) (hpos : src.pos ≤ src.buf.length)
    (hfind : findCRLF (src.buf.drop src.pos) = some i) :
    line src = some (.ok ((src.buf.drop src.pos).take i),
      { src with pos := src.pos + i + 2 }) := by
  unfold line
  rw [if_pos hpos, hfind]

theorem line_eq_unterminated (src : Cursor) (hpos : src.pos ≤ src.buf.length)
    (hfind : findCRLF (src.buf.drop src.pos) = none) :
    line src = some (.error (.Unterminated (src.buf.drop src.pos).length), src) := by
  unfold line
  rw [if_pos hpos, hfind]

theorem line_ok_inv (src : Cursor) (l : List Nat) (src' : Cursor)
    (h : line src = some (.ok l, src')) :
    src'.buf = src.buf ∧ src.pos ≤ src.buf.length ∧
    ∃ i, findCRLF (src.buf.drop src.pos) = some i ∧
      l = (src.buf.drop src.pos).take i ∧ l.length = i ∧
      src'.pos = src.pos + i + 2 ∧ src.pos + i + 2 ≤ src.buf.length := by
  unfold line at h
  split at h
  case isFalse => exact Option.noConfusion h
  case isTrue hpos =>
    split at h
    case h_2 => simp at h
    case h_1 i hfind =>
      injection h with h
      injection h with h1 h2
      injection h1 with h1
      subst h1
      subst h2
      have hc := (findCRLF_eq_some _ i hfind).1
      have hlt : i + 1 < (src.buf.drop src.pos).length := crlfAt_lt_length hc
      rw [List.length_drop] at hlt
      refine ⟨rfl, hpos, i, hfind, rfl, ?_, rfl, by omega⟩
      rw [List.length_take, List.length_drop]
      omega

theorem line_err_inv (src : Cursor) (e : CursorError) (src' : Cursor)
    (h : line src = some (.error e, src')) :
    src' = src ∧ e = .Unterminated (src.buf.length - src.pos) ∧
      src.pos ≤ src.buf.length ∧ findCRLF (src.buf.drop src.pos) = none := by
  unfold line at h
  split at h
  case isFalse => exact Option.noConfusion h
  case isTrue hpos =>
    split at h
    case h_1 => simp at h
    case h_2 hfind =>
      injection h with h
      injection h with h1 h2
      injection h1 with h1
      subst h1
      subst h2
      rw [List.length_drop]
      exact ⟨rfl, rfl, hpos, hfind⟩

/-- C3: for a cursor over slice `s` at position `p ≤ len s`, if the
remaining bytes contain CRLF with first occurrence at relative offset
`i`, then `line` returns the sub-slice `s[p..p+i]` (terminator
excluded) and sets the position to `p + i + 2`; if the remaining
bytes contain no CRLF anywhere, `line` fails with
`Unterminated (len s - p)` and the position stays `p`. -/
theorem line_first_crlf_spec (src : Cursor) (hpos : src.pos ≤ src.buf.length) :
    (∀ i, crlfAt (src.buf.drop src.pos) i →
      (∀ j < i, ¬ crlfAt (src.buf.drop src.pos) j) →
      line src = some (.ok ((src.buf.drop src.pos).take i),
        { src with pos := src.pos + i + 2 })) ∧
    ((∀ i, ¬ crlfAt (src.buf.drop src.pos) i) →
      line src = some (.error (.Unterminated (src.buf.length - src.pos)), src)) := by
  constructor
  · intro i hc hfirst
    exact line_eq_found src i hpos (findCRLF_eq_some_of_first _ i hc hfirst)
  · intro hno
    cases hfind : findCRLF (src.buf.drop src.pos) with
    | some i => exact absurd (findCRLF_eq_some _ i hfind).1 (hno i)
    | none =>
        have h := line_eq_unterminated src hpos hfind
        rwa [List.length_drop] at h

theorem line_first_crlf_spec_witness :
    (0 : Nat) ≤ (5 : Nat) ∧
    line ⟨[72, 105, 13, 10, 88], 0⟩ =
      some (.ok [72, 105], ⟨[72, 105, 13, 10, 88], 4⟩) ∧
    line ⟨[72, 105], 0⟩ =
      some (.error (.Unterminated 2), ⟨[72, 105], 0⟩) := by
  refine ⟨by decide, ?_, ?_⟩
  · have h := (line_first_crlf_spec ⟨[72, 105, 13, 10, 88], 0⟩ (by decide)).1 2
      (by decide) (by decide)
    simpa using h
  · have h := (line_first_crlf_spec ⟨[72, 105], 0⟩ (by decide)).2
      (findCRLF_eq_none _ (by decide))
    simpa using h

/-- C8: for a cursor over slice `s` at position `p ≤ len s`, `byte`
succeeds iff `p < len s`; on success it returns `s[p]` and the
position becomes `p + 1`; at `p = len s` it returns `Incomplete` and
the position stays `p`. -/
theorem byte_spec (src : Cursor) (hpos : src.pos ≤ src.buf.length) :
    (∀ hlt : src.pos < src.buf.length,
      byte src = (.ok (src.buf.get ⟨src.pos, hlt⟩), { src with pos := src.pos + 1 })) ∧
    (src.pos = src.buf.length → byte src = (.error .Incomplete, src)) := by
  constructor
  · intro hlt
    unfold byte
    rw [show src.buf[src.pos]? = some (src.buf.get ⟨src.pos, hlt⟩) from by
      rw [List.getElem?_eq_getElem hlt, List.get_eq_getElem]]
  · intro heq
    unfold byte
    rw [List.getElem?_eq_none (by omega)]

theorem byte_spec_witness :
    (1 : Nat) ≤ (2 : Nat) ∧ byte ⟨[7, 8], 1⟩ = (.ok 8, ⟨[7, 8], 2⟩) := by
  refine ⟨by decide, ?_⟩
  have h := (byte_spec ⟨[7, 8], 1⟩ (by decide)).1 (by decide)
  simpa using h

/-- C6: for a cursor over slice `s` at position `p ≤ len s` and a
requested length: when `p + length` overflows u64 the operation is a
panic (`none`); otherwise it succeeds iff `p + length ≤ len s`,
returning exactly `s[p..p+length]` with the position becoming
`p + length`, and fails with `Incomplete` leaving the position at `p`
otherwise. -/
theorem slice_spec (src : Cursor) (len : Nat) (hpos : src.pos ≤ src.buf.length) :
    (2 ^ 64 ≤ src.pos + len → slice src len = none) ∧
    (src.pos + len < 2 ^ 64 →
      (src.pos + len ≤ src.buf.length →
        slice src len = some (.ok ((src.buf.drop src.pos).take len),
          { src with pos := src.pos + len })) ∧
      (src.buf.length < src.pos + len →
        slice src len = some (.error .Incomplete, src))) := by
  refine ⟨fun hov => ?_, fun hov => ⟨fun hle => ?_, fun hgt => ?_⟩⟩
  · unfold slice
    rw [if_neg (by omega)]
  · unfold slice
    rw [if_pos hov, if_pos hle]
  · unfold slice
    rw [if_pos hov, if_neg (by omega)]

theorem slice_spec_witness :
    (1 : Nat) ≤ (4 : Nat) ∧
    slice ⟨[1, 2, 3, 4], 1⟩ 2 = some (.ok [2, 3], ⟨[1, 2, 3, 4], 3⟩) ∧
    slice ⟨[1, 2, 3, 4], 1⟩ 9 = some (.error .Incomplete, ⟨[1, 2, 3, 4], 1⟩) := by
  refine ⟨by decide, ?_, ?_⟩
  · have h := ((slice_spec ⟨[1, 2, 3, 4], 1⟩ 2 (by decide)).2 (by decide)).1 (by decide)
    simpa using h
  · exact ((slice_spec ⟨[1, 2, 3, 4], 1⟩ 9 (by decide)).2 (by decide)).2 (by decide)

/-- C10: under the precondition `pos ≤ len`, `line` never panics (it
always returns `some`); without it the operations differ at the
public interface: at a position beyond the slice length `line`
panics (`none`) while `byte` and `slice` return `Incomplete` for the
same out-of-bounds position. -/
theorem line_panic_boundary (src : Cursor) :
    (src.pos ≤ src.buf.length → ∃ out, line src = some out) ∧
    (src.buf.length < src.pos →
      line src = none ∧
      byte src = (.error .Incomplete, src) ∧
      ∀ len, src.pos + len < 2 ^ 64 →
        slice src len = some (.error .Incomplete, src)) := by
  constructor
  · intro hpos
    unfold line
    rw [if_pos hpos]
    cases hfind : findCRLF (src.buf.drop src.pos)
    · exact ⟨_, rfl⟩
    · exact ⟨_, rfl⟩
  · intro hgt
    refine ⟨?_, ?_, ?_⟩
    · unfold line
      rw [if_neg (by omega)]
    · unfold byte
      rw [List.getElem?_eq_none (by omega)]
    · intro len hov
      unfold slice
      rw [if_pos hov, if_neg (by omega)]

theorem line_panic_boundary_witness :
    line ⟨[1], 5⟩ = none ∧
    byte ⟨[1], 5⟩ = (.error .Incomplete, ⟨[1], 5⟩) ∧
    slice ⟨[1], 5⟩ 0 = some (.error .Incomplete, ⟨[1], 5⟩) := by
  obtain ⟨h1, h2, h3⟩ := (line_panic_boundary ⟨[1], 5⟩).2 (by decide)
  exact ⟨h1, h2, h3 0 (by decide)⟩

theorem size_err_of_line_err (src : Cursor) (e : CursorError) (src' : Cursor)
    (h : line src = some (.error e, src')) : size src = some (.error e, src') := by
  unfold size
  rw [h]

theorem size_of_line_ok (src : Cursor) (l : List Nat) (src' : Cursor)
    (h : line src = some (.ok l, src')) :
    size src = some ((atoiU64 l).elim (.error .Size) .ok, src') := by
  cases hu : atoiU64 l <;> simp [size, h, hu]

theorem integer_err_of_line_err (src : Cursor) (e : CursorError) (src' : Cursor)
    (h : line src = some (.error e, src')) : integer src = some (.error e, src') := by
  unfold integer
  rw [h]

theorem integer_of_line_ok (src : Cursor) (l : List Nat) (src' : Cursor)
    (h : line src = some (.ok l, src')) :
    integer src = some ((atoiI64 l).elim (.error .Integer) .ok, src') := by
  cases hu : atoiI64 l <;> simp [integer, h, hu]

/-- C1: for every cursor whose remaining bytes contain a CRLF
terminator (so `line` succeeds, returning line bytes `l` and state
`src'`) but whose line bytes do not parse as the required number,
`size` returns `Size` and `integer` returns `Integer`, and in both
cases the returned cursor state is the already-advanced `src'`, whose
position sits just past the line feed of the terminator
(`p + len l + 2`); the position is not rolled back on the parse
failure. -/
theorem size_integer_commit_position (src : Cursor) (l : List Nat) (src' : Cursor)
    (hline : line src = some (.ok l, src')) :
    (atoiU64 l = none → size src = some (.error .Size, src')) ∧
    (atoiI64 l = none → integer src = some (.error .Integer, src')) ∧
    src'.pos = src.pos + l.length + 2 := by
  refine ⟨fun hu => ?_, fun hi => ?_, ?_⟩
  · have h := size_of_line_ok src l src' hline
    rwa [hu] at h
  · have h := integer_of_line_ok src l src' hline
    rwa [hi] at h
  · obtain ⟨-, -, i, -, -, hlen, hpos', -⟩ := line_ok_inv src l src' hline
    omega

theorem size_integer_commit_position_witness :
    line ⟨[97, 98, 13, 10], 0⟩ = some (.ok [97, 98], ⟨[97, 98, 13, 10], 4⟩) ∧
    size ⟨[97, 98, 13, 10], 0⟩ = some (.error .Size, ⟨[97, 98, 13, 10], 4⟩) ∧
    integer ⟨[97, 98, 13, 10], 0⟩ = some (.error .Integer, ⟨[97, 98, 13, 10], 4⟩) ∧
    (4 : Nat) = 0 + 2 + 2 := by
  have h := size_integer_commit_position ⟨[97, 98, 13, 10], 0⟩ [97, 98]
    ⟨[97, 98, 13, 10], 4⟩ (by decide)
  exact ⟨by decide, h.1 (by decide), h.2.1 (by decide), h.2.2⟩

theorem size_state (src : Cursor) (r : Except CursorError Nat) (src' : Cursor)
    (h : size src = some (r, src')) :
    ∃ r0 : Except CursorError (List Nat), line src = some (r0, src') := by
  unfold size at h
  split at h
  · exact Option.noConfusion h
  · rename_i e s' heq
    injection h with h
    injection h with h1 h2
    subst h2
    exact ⟨.error e, heq⟩
  · rename_i l s' heq
    split at h
    · injection h with h
      injection h with h1 h2
      subst h2
      exact ⟨.ok l, heq⟩
    · injection h with h
      injection h with h1 h2
      subst h2
      exact ⟨.ok l, heq⟩

theorem integer_state (src : Cursor) (r : Except CursorError Int) (src' : Cursor)
    (h : integer src = some (r, src')) :
    ∃ r0 : Except CursorError (List Nat), line src = some (r0, src') := by
  unfold integer at h
  split at h
  · exact Option.noConfusion h
  · rename_i e s' heq
    injection h with h
    injection h with h1 h2
    subst h2
    exact ⟨.error e, heq⟩
  · rename_i l s' heq
    split at h
    · injection h with h
      injection h with h1 h2
      subst h2
      exact ⟨.ok l, heq⟩
    · injection h with h
      injection h with h1 h2
      subst h2
      exact ⟨.ok l, heq⟩

/-- C9: every cursor operation (`byte`, `slice`, `line`, `size`,
`integer`), whether it succeeds or fails (panics excluded, since a
panic produces no final state), leaves the position at least the
position before the call, and, starting from a position within the
slice, leaves the position at most the slice length. -/
theorem position_monotone (src : Cursor) :
    (∀ r src', byte src = (r, src') →
      src.pos ≤ src'.pos ∧ (src.pos ≤ src.buf.length → src'.pos ≤ src.buf.length)) ∧
    (∀ len r src', slice src len = some (r, src') →
      src.pos ≤ src'.pos ∧ (src.pos ≤ src.buf.length → src'.pos ≤ src.buf.length)) ∧
    (∀ r src', line src = some (r, src') →
      src.pos ≤ src'.pos ∧ (src.pos ≤ src.buf.length → src'.pos ≤ src.buf.length)) ∧
    (∀ r src', size src = some (r, src') →
      src.pos ≤ src'.pos ∧ (src.pos ≤ src.buf.length → src'.pos ≤ src.buf.length)) ∧
    (∀ r src', integer src = some (r, src') →
      src.pos ≤ src'.pos ∧ (src.pos ≤ src.buf.length → src'.pos ≤ src.buf.length)) := by
  have hline : ∀ (r : Except CursorError (List Nat)) (src' : Cursor),
      line src = some (r, src') →
      src.pos ≤ src'.pos ∧ (src.pos ≤ src.buf.length → src'.pos ≤ src.buf.length) := by
    intro r src' h
    cases r with
    | ok l =>
        obtain ⟨-, -, i, -, -, -, hpos', hbound⟩ := line_ok_inv src l src' h
        exact ⟨by omega, fun _ => by omega⟩
    | error e =>
        obtain ⟨rfl, -, -, -⟩ := line_err_inv src e src' h
        exact ⟨Nat.le_refl _, fun hp => hp⟩
  refine ⟨?_, ?_, hline, ?_, ?_⟩
  · intro r src' h
    cases hb : src.buf[src.pos]? with
    | some b =>
        have hbyte : byte src = (.ok b, { src with pos := src.pos + 1 }) := by
          unfold byte
          rw [hb]
        rw [hbyte] at h
        injection h with h1 h2
        subst h2
        have hlt := getElem?_some_lt hb
        exact ⟨Nat.le_succ _, fun _ => by show src.pos + 1 ≤ src.buf.length; omega⟩
    | none =>
        have hbyte : byte src = (.error .Incomplete, src) := by
          unfold byte
          rw [hb]
        rw [hbyte] at h
        injection h with h1 h2
        subst h2
        exact ⟨Nat.le_refl _, fun hp => hp⟩
  · intro len r src' h
    unfold slice at h
    split at h
    case isFalse hov => exact Option.noConfusion h
    case isTrue hov =>
      split at h
      case isTrue hle =>
          injection h with h
          injection h with h1 h2
          subst h2
          exact ⟨Nat.le_add_right _ _, fun _ => hle⟩
      case isFalse hgt =>
          injection h with h
          injection h with h1 h2
          subst h2
          exact ⟨Nat.le_refl _, fun hp => hp⟩
  · intro r src' h
    obtain ⟨r0, h0⟩ := size_state src r src' h
    exact hline r0 src' h0
  · intro r src' h
    obtain ⟨r0, h0⟩ := integer_state src r src' h
    exact hline r0 src' h0

theorem position_monotone_witness :
    byte ⟨[9], 0⟩ = (.ok 9, ⟨[9], 1⟩) ∧
    (0 : Nat) ≤ (1 : Nat) ∧ ((0 : Nat) ≤ (1 : Nat) → (1 : Nat) ≤ (1 : Nat)) := by
  refine ⟨by decide, ?_⟩
  exact (position_monotone ⟨[9], 0⟩).1 (.ok 9) ⟨[9], 1⟩ (by decide)

theorem atoiU64_eq_some_iff (l : List Nat) :
    (∃ n, atoiU64 l = some n) ↔
      (l ≠ [] ∧ (∀ b ∈ l, 48 ≤ b ∧ b ≤ 57) ∧ atoiU64.digitsVal l < 2 ^ 64) := by
  unfold atoiU64
  split
  case isTrue h => exact ⟨fun _ => h, fun _ => ⟨_, rfl⟩⟩
  case isFalse h =>
    constructor
    · rintro ⟨n, hn⟩
      exact Option.noConfusion hn
    · intro hP
      exact absurd hP h

theorem atoiI64_eq_some_iff (l : List Nat) :
    (∃ n, atoiI64 l = some n) ↔
      ((l ≠ [] ∧ (∀ b ∈ l, 48 ≤ b ∧ b ≤ 57) ∧ atoiU64.digitsVal l < 2 ^ 63) ∨
        (∃ d, l = 45 :: d ∧ d ≠ [] ∧ (∀ b ∈ d, 48 ≤ b ∧ b ≤ 57) ∧
          atoiU64.digitsVal d ≤ 2 ^ 63)) := by
  rw [atoiI64.eq_def]
  split
  next rest =>
    split
    case isTrue h =>
      constructor
      · intro _
        exact Or.inr ⟨rest, rfl, h⟩
      · intro _
        exact ⟨_, rfl⟩
    case isFalse h =>
      constructor
      · rintro ⟨n, hn⟩
        exact Option.noConfusion hn
      · rintro (⟨hne, hall, hlt⟩ | ⟨d, heq, hd⟩)
        · have h45 := hall 45 (List.mem_cons_self 45 rest)
          omega
        · injection heq with h1 h2
          subst h2
          exact absurd hd h
  next x hno =>
    split
    case isTrue h =>
      constructor
      · intro _
        exact Or.inl h
      · intro _
        exact ⟨_, rfl⟩
    case isFalse h =>
      constructor
      · rintro ⟨n, hn⟩
        exact Option.noConfusion hn
      · rintro (hP | ⟨d, heq, hd⟩)
        · exact absurd hP h
        · exact absurd heq (fun hh => hno d hh)

/-- C4: for every CRLF-terminated line (line bytes `l` as returned by
a successful `line` call ending in state `src'`), `size` succeeds iff
`l` is one or more ASCII digits whose value fits in u64 (no sign, no
whitespace, not empty), and `integer` succeeds iff `l` is an optional
single leading minus (byte 45) followed by one or more ASCII digits
whose value fits in i64; any other line, in particular one with a
leading plus or any non-digit byte, yields `Size` and `Integer`
respectively, with the already-advanced state `src'`. -/
theorem size_integer_parse_iff (src : Cursor) (l : List Nat) (src' : Cursor)
    (hline : line src = some (.ok l, src')) :
    ((∃ n, size src = some (.ok n, src')) ↔
      (l ≠ [] ∧ (∀ b ∈ l, 48 ≤ b ∧ b ≤ 57) ∧ atoiU64.digitsVal l < 2 ^ 64)) ∧
    ((∃ n, integer src = some (.ok n, src')) ↔
      ((l ≠ [] ∧ (∀ b ∈ l, 48 ≤ b ∧ b ≤ 57) ∧ atoiU64.digitsVal l < 2 ^ 63) ∨
        (∃ d, l = 45 :: d ∧ d ≠ [] ∧ (∀ b ∈ d, 48 ≤ b ∧ b ≤ 57) ∧
          atoiU64.digitsVal d ≤ 2 ^ 63))) ∧
    (atoiU64 l = none → size src = some (.error .Size, src')) ∧
    (atoiI64 l = none → integer src = some (.error .Integer, src')) := by
  refine ⟨?_, ?_, fun hu => ?_, fun hi => ?_⟩
  · rw [← atoiU64_eq_some_iff]
    constructor
    · rintro ⟨n, hn⟩
      have h := size_of_line_ok src l src' hline
      cases hu : atoiU64 l with
      | some m => exact ⟨m, rfl⟩
      | none =>
          rw [hu] at h
          rw [h] at hn
          injection hn with hn
          injection hn with hn1 hn2
          exact Except.noConfusion hn1
    · rintro ⟨n, hn⟩
      have h := size_of_line_ok src l src' hline
      rw [hn] at h
      exact ⟨n, h⟩
  · rw [← atoiI64_eq_some_iff]
    constructor
    · rintro ⟨n, hn⟩
      have h := integer_of_line_ok src l src' hline
      cases hi : atoiI64 l with
      | some m => exact ⟨m, rfl⟩
      | none =>
          rw [hi] at h
          rw [h] at hn
          injection hn with hn
          injection hn with hn1 hn2
          exact Except.noConfusion hn1
    · rintro ⟨n, hn⟩
      have h := integer_of_line_ok src l src' hline
      rw [hn] at h
      exact ⟨n, h⟩
  · have h := size_of_line_ok src l src' hline
    rwa [hu] at h
  · have h := integer_of_line_ok src l src' hline
    rwa [hi] at h

theorem size_integer_parse_iff_witness :
    line ⟨[49, 50, 13, 10], 0⟩ = some (.ok [49, 50], ⟨[49, 50, 13, 10], 4⟩) ∧
    (∃ n, size ⟨[49, 50, 13, 10], 0⟩ = some (.ok n, ⟨[49, 50, 13, 10], 4⟩)) ∧
    integer ⟨[43, 52, 50, 13, 10], 0⟩ =
      some (.error .Integer, ⟨[43, 52, 50, 13, 10], 5⟩) := by
  refine ⟨by decide, ?_, ?_⟩
  · exact ((size_integer_parse_iff ⟨[49, 50, 13, 10], 0⟩ [49, 50]
      ⟨[49, 50, 13, 10], 4⟩ (by decide)).1).mpr (by decide)
  · exact (size_integer_parse_iff ⟨[43, 52, 50, 13, 10], 0⟩ [43, 52, 50]
      ⟨[43, 52, 50, 13, 10], 5⟩ (by decide)).2.2.2 (by decide)

end CursorUtils

namespace ReadBufLib

/-- C5: `ReadBuf::read` never returns `Ok(0)`: a successful return
carries a positive count; a source that successfully reports zero
bytes makes `read` fail with the dedicated zero-progress error
`writeZero`, while a failing source has its error propagated
unchanged. -/
theorem read_zero_progress (rb : ReadBuf) :
    (∀ d n rb', ReadBuf.read rb (.ok d) = some (.ok n, rb') → 0 < n) ∧
    (∃ rb', ReadBuf.read rb (.ok []) = some (.error .writeZero, rb')) ∧
    (∀ e, ∃ rb', ReadBuf.read rb (.err e) = some (.error e, rb')) := by
  refine ⟨?_, ?_, ?_⟩
  · intro d n rb' h
    simp only [ReadBuf.read] at h
    split at h
    case isFalse => exact Option.noConfusion h
    case isTrue hfit =>
      split at h
      case isFalse =>
        injection h with h
        injection h with h1 h2
        exact Except.noConfusion h1
      case isTrue h0 =>
        injection h with h
        injection h with h1 h2
        have := Except.ok.inj h1
        omega
  · refine ⟨{ compact rb with
        buf := writeAt (compact rb).buf (compact rb).endIdx ([] : List Nat),
        endIdx := (compact rb).endIdx + List.length ([] : List Nat) }, ?_⟩
    simp only [ReadBuf.read]
    rw [if_pos (by simp : ([] : List Nat).length ≤ (compact rb).buf.length - (compact rb).endIdx), if_neg (by decide)]
  · intro e
    refine ⟨compact rb, ?_⟩
    simp only [ReadBuf.read]

theorem read_zero_progress_witness :
    ReadBuf.read (ReadBuf.withCapacity 4) (.ok [1]) =
      some (.ok 1, ⟨[1, 0, 0, 0], 0, 1⟩) ∧ 0 < 1 :=
  ⟨by decide,
    (read_zero_progress (ReadBuf.withCapacity 4)).1 [1] 1 ⟨[1, 0, 0, 0], 0, 1⟩ (by decide)⟩

/-- Readable region after advancing `start` by `amt`: it is the old
readable region with its first `amt` bytes removed. -/
theorem bufView_advance_start (rb : ReadBuf) (amt : Nat) :
    ReadBuf.bufView { rb with start := rb.start + amt } =
      (ReadBuf.bufView rb).drop amt := by
  unfold ReadBuf.bufView
  rw [List.drop_take, List.drop_drop]
  have h1 : rb.endIdx - rb.start - amt = rb.endIdx - (rb.start + amt) := by omega
  rw [h1]

/-- C7: `consume(amt)` with `amt` greater than the current readable
length is a fatal contract violation (a panic, modelled by `none`),
never a silent success; with `amt` within bounds it advances `start`
by exactly `amt`, so the readable region afterwards is the previous
one with its first `amt` bytes removed. -/
theorem consume_spec (rb : ReadBuf) (amt : Nat) (hse : rb.start ≤ rb.endIdx) :
    (rb.endIdx - rb.start < amt → ReadBuf.consume rb amt = none) ∧
    (amt ≤ rb.endIdx - rb.start →
      ReadBuf.consume rb amt = some { rb with start := rb.start + amt } ∧
      ReadBuf.bufView { rb with start := rb.start + amt } =
        (ReadBuf.bufView rb).drop amt) := by
  constructor
  · intro hlt
    unfold ReadBuf.consume
    rw [if_neg (by omega)]
  · intro hle
    refine ⟨?_, bufView_advance_start rb amt⟩
    unfold ReadBuf.consume
    rw [if_pos hle]

theorem consume_spec_witness :
    (1 : Nat) ≤ (3 : Nat) ∧
    ReadBuf.consume ⟨[5, 6, 7], 1, 3⟩ 1 = some ⟨[5, 6, 7], 2, 3⟩ ∧
    ReadBuf.bufView ⟨[5, 6, 7], 2, 3⟩ = (ReadBuf.bufView ⟨[5, 6, 7], 1, 3⟩).drop 1 := by
  have h := (consume_spec ⟨[5, 6, 7], 1, 3⟩ 1 (by decide)).2 (by decide)
  exact ⟨by decide, h.1, h.2⟩

theorem compact_tracks (rb : ReadBuf) (sup : List Nat) (con : Nat)
    (h : Tracks rb sup con) :
    Tracks (compact rb) sup con ∧ (compact rb).buf.length = rb.buf.length := by
  obtain ⟨h1, h2, h3, h4, h5⟩ := h
  unfold compact
  split
  case isFalse => exact ⟨⟨h1, h2, h3, h4, h5⟩, rfl⟩
  case isTrue hcmp =>
    have hAlen : ((rb.buf.drop rb.start).take (rb.endIdx - rb.start)).length =
        rb.endIdx - rb.start := by
      rw [List.length_take, List.length_drop]
      omega
    have hlen : ((rb.buf.drop rb.start).take (rb.endIdx - rb.start) ++
        rb.buf.drop (rb.endIdx - rb.start)).length = rb.buf.length := by
      rw [List.length_append, hAlen, List.length_drop]
      omega
    refine ⟨⟨Nat.zero_le _, ?_, h3, ?_, ?_⟩, hlen⟩
    · show rb.endIdx - rb.start ≤ _
      rw [hlen]
      omega
    · show sup.length - con = rb.endIdx - rb.start - 0
      omega
    · show ReadBuf.bufView _ = sup.drop con
      unfold ReadBuf.bufView
      rw [List.drop_zero, Nat.sub_zero, List.take_left' hAlen]
      exact h5

theorem writeAt_length (L d : List Nat) (p : Nat) (hp : p + d.length ≤ L.length) :
    (writeAt L p d).length = L.length := by
  unfold writeAt
  rw [List.length_append, List.length_append, List.length_take, List.length_drop]
  omega

theorem view_write (L data : List Nat) (s e : Nat)
    (hse : s ≤ e) (hel : e ≤ L.length) :
    ((writeAt L e data).drop s).take (e + data.length - s) =
      (L.drop s).take (e - s) ++ data := by
  unfold writeAt
  have h1 : (L.take e).length = e := by
    rw [List.length_take]
    omega
  rw [List.append_assoc, List.drop_append_eq_append_drop, h1,
    Nat.sub_eq_zero_of_le hse, List.drop_zero, List.take_append_eq_append_take]
  have h2 : (L.take e).drop s = (L.drop s).take (e - s) := List.drop_take e s L
  have h3 : ((L.take e).drop s).length = e - s := by
    rw [List.length_drop, h1]
  rw [List.take_of_length_le (by omega : ((L.take e).drop s).length ≤ e + data.length - s)]
  rw [h3]
  have h4 : e + data.length - s - (e - s) = data.length := by omega
  rw [h4, List.take_append_eq_append_take, List.take_of_length_le (Nat.le_refl _),
    Nat.sub_self, List.take_zero, List.append_nil, h2]

theorem read_ok_tracks (rb : ReadBuf) (sup : List Nat) (con : Nat) (data : List Nat)
    (h : Tracks rb sup con) (n : Nat) (rb' : ReadBuf)
    (hread : ReadBuf.read rb (.ok data) = some (.ok n, rb')) :
    Tracks rb' (sup ++ data) con := by
  obtain ⟨hc, hclen⟩ := compact_tracks rb sup con h
  obtain ⟨h1, h2, h3, h4, h5⟩ := hc
  simp only [ReadBuf.read] at hread
  split at hread
  case isFalse => exact Option.noConfusion hread
  case isTrue hfit =>
    split at hread
    case isFalse =>
      injection hread with hh
      injection hh with hh1 hh2
      exact Except.noConfusion hh1
    case isTrue h0 =>
      injection hread with hh
      injection hh with hh1 hh2
      subst hh2
      have hwl : (writeAt (compact rb).buf (compact rb).endIdx data).length =
          (compact rb).buf.length :=
        writeAt_length _ _ _ (by omega)
      refine ⟨?_, ?_, ?_, ?_, ?_⟩
      · show (compact rb).start ≤ (compact rb).endIdx + data.length
        omega
      · show (compact rb).endIdx + data.length ≤
          (writeAt (compact rb).buf (compact rb).endIdx data).length
        rw [hwl]
        omega
      · show con ≤ (sup ++ data).length
        rw [List.length_append]
        omega
      · show (sup ++ data).length - con =
          ((compact rb).endIdx + data.length) - (compact rb).start
        rw [List.length_append]
        omega
      · show ((writeAt (compact rb).buf (compact rb).endIdx data).drop
            (compact rb).start).take
            ((compact rb).endIdx + data.length - (compact rb).start) =
          (sup ++ data).drop con
        have hv := view_write (compact rb).buf data (compact rb).start
          (compact rb).endIdx h1 h2
        rw [hv]
        have h5' : ((compact rb).buf.drop (compact rb).start).take
            ((compact rb).endIdx - (compact rb).start) = sup.drop con := h5
        rw [h5', List.drop_append_eq_append_drop, Nat.sub_eq_zero_of_le h3,
          List.drop_zero]

theorem consume_tracks (rb : ReadBuf) (sup : List Nat) (con amt : Nat)
    (rb' : ReadBuf) (h : Tracks rb sup con)
    (hcons : ReadBuf.consume rb amt = some rb') :
    Tracks rb' sup (con + amt) := by
  obtain ⟨h1, h2, h3, h4, h5⟩ := h
  unfold ReadBuf.consume at hcons
  split at hcons
  case isFalse => exact Option.noConfusion hcons
  case isTrue hle =>
    injection hcons with hh
    subst hh
    refine ⟨by show rb.start + amt ≤ rb.endIdx; omega, h2, by omega,
      by show sup.length - (con + amt) = rb.endIdx - (rb.start + amt); omega, ?_⟩
    rw [bufView_advance_start, h5, List.drop_drop]

theorem runOps_tracks (ops : List BufOp) (rb : ReadBuf) (sup : List Nat) (con : Nat)
    (h : Tracks rb sup con) (rb' : ReadBuf) (hrun : runOps rb ops = some rb') :
    Tracks rb' (sup ++ suppliedBytes ops) (con + consumedCount ops) := by
  induction ops generalizing rb sup con with
  | nil =>
      simp only [runOps] at hrun
      injection hrun with hh
      subst hh
      simpa [suppliedBytes, consumedCount] using h
  | cons op rest ih =>
      cases op with
      | read data =>
          simp only [runOps] at hrun
          split at hrun
          · rename_i n rb1 heq
            have hstep := read_ok_tracks rb sup con data h n rb1 heq
            have htail := ih rb1 (sup ++ data) con hstep hrun
            simpa [suppliedBytes, consumedCount, List.append_assoc] using htail
          · exact Option.noConfusion hrun
      | consume amt =>
          simp only [runOps] at hrun
          split at hrun
          · rename_i rb1 heq
            have hstep := consume_tracks rb sup con amt rb1 h heq
            have htail := ih rb1 sup (con + amt) hstep hrun
            simpa [suppliedBytes, consumedCount, Nat.add_assoc] using htail
          · exact Option.noConfusion hrun

/-- C2: for every sequence of successful `ReadBuf::read` calls and
precondition-respecting `consume` calls starting from a fresh buffer,
`buf()` returns exactly the bytes supplied by the sources that have
not yet been consumed, in the order they were read, regardless of
whether internal compaction occurred; compaction never discards or
reorders unconsumed bytes. -/
theorem readbuf_view_eq_unconsumed (capacity : Nat) (ops : List BufOp)
    (rb' : ReadBuf)
    (hrun : runOps (ReadBuf.withCapacity capacity) ops = some rb') :
    rb'.bufView = (suppliedBytes ops).drop (consumedCount ops) := by
  have h0 : Tracks (ReadBuf.withCapacity capacity) [] 0 := by
    refine ⟨Nat.le_refl 0, Nat.zero_le _, Nat.le_refl 0, rfl, ?_⟩
    simp [ReadBuf.bufView, ReadBuf.withCapacity]
  have h := runOps_tracks ops _ [] 0 h0 rb' hrun
  simpa using h.2.2.2.2

theorem readbuf_view_eq_unconsumed_witness :
    runOps (ReadBuf.withCapacity 4)
      [BufOp.read [1, 2], BufOp.consume 1, BufOp.read [3]] =
      some ⟨[2, 3, 0, 0], 0, 2⟩ ∧
    ReadBuf.bufView ⟨[2, 3, 0, 0], 0, 2⟩ =
      (suppliedBytes [BufOp.read [1, 2], BufOp.consume 1, BufOp.read [3]]).drop
        (consumedCount [BufOp.read [1, 2], BufOp.consume 1, BufOp.read [3]]) :=
  ⟨by decide, readbuf_view_eq_unconsumed 4
    [BufOp.read [1, 2], BufOp.consume 1, BufOp.read [3]]
    ⟨[2, 3, 0, 0], 0, 2⟩ (by decide)⟩

end ReadBufLib
